import Mathlib

/- Verification development for the Git-Seer repository.

   The definitions below are shallow embeddings of the two Python source
   files, src/seer.py and src/seer-tui.py:

   - EntryType / RawEntry model the flat GitHub listing records
     (dictionaries with a path and a type tag, which is one of the strings
     blob or tree).
   - NetResponse / get_repo_tree model seer.py get_repo_tree (and the
     identical get_tree closure in seer-tui.py): the network is an oracle
     from branch name to response; a response is either a 2xx JSON body
     whose optional field is the listing, an HTTP status error, or a
     transport-level request failure.
   - mainRun models the exit-code and fetch behaviour of seer.py main.
   - analyze_project_structure, analyze_dependencies, analyze_languages
     model the analysis passes of seer.py line by line.
   - buildStep / populate_tree model SeerApp.populate_tree of seer-tui.py:
     a fold over the path-sorted listing that appends one widget node per
     entry and keeps a dictionary from directory path to node index.

   Python string operations are modelled at the character-list level:
   split_slash is str.split, rpartition_slash is str.rpartition and
   rsplitDotLast is str.rsplit with maxsplit one (returning none when the
   separator is absent, which corresponds to a singleton result list). -/

namespace GitSeer

inductive EntryType where
  | blob
  | tree
deriving DecidableEq

structure RawEntry where
  path : String
  type : EntryType
deriving DecidableEq

/-- Model of the Python str.split separator algorithm on character lists. -/
def splitOnCharList (c : Char) : List Char → List (List Char)
  | [] => [[]]
  | x :: xs =>
    let r := splitOnCharList c xs
    if x = c then [] :: r
    else
      match r with
      | [] => [[x]]
      | h :: t => (x :: h) :: t

/-- Python s.split with separator the slash character. -/
def split_slash (s : String) : List String :=
  (splitOnCharList '/' s.data).map String.mk

/-- The character test used to find the final slash of a path. -/
def notSlash (c : Char) : Bool := c ≠ '/'

/-- Python s.rpartition at the slash character, keeping the first and last
    component: with no slash present the result is the pair of the empty
    string and s, otherwise the text before and after the final slash. -/
def rpartition_slash (s : String) : String × String :=
  match s.data.reverse.dropWhile notSlash with
  | [] => ("", s)
  | _ :: before =>
    (String.mk before.reverse, String.mk (s.data.reverse.takeWhile notSlash).reverse)

/-- Python s.rsplit at the dot character with maxsplit one; none models a
    singleton result list (no dot present anywhere in s). -/
def rsplitDotLast (s : String) : Option (String × String) :=
  let rev := s.data.reverse
  match rev.dropWhile (· ≠ '.') with
  | [] => none
  | _ :: before => some (String.mk before.reverse, String.mk (rev.takeWhile (· ≠ '.')).reverse)

/-- Python string comparison: strict lexicographic order on the codepoint
    sequences (given as a structurally recursive Boolean so that concrete
    instances evaluate inside the kernel). -/
def lexLt : List Char → List Char → Bool
  | [], [] => false
  | [], _ :: _ => true
  | _ :: _, [] => false
  | a :: as, b :: bs => if a < b then true else if b < a then false else lexLt as bs

/-- The corresponding non-strict order on strings. -/
def strLe (a b : String) : Prop := lexLt b.data a.data = false

/-- The non-strict order on listing entries used by the sort key of
    populate_tree: compare the path strings. -/
def entryPathLe (a b : RawEntry) : Prop := lexLt b.path.data a.path.data = false

instance : DecidableRel strLe := fun a b => by unfold strLe; infer_instance

instance : DecidableRel entryPathLe := fun a b => by unfold entryPathLe; infer_instance

/-- Python s.startswith pre. -/
def startsWithS (pre s : String) : Bool := pre.data.isPrefixOf s.data

/-- Python s.endswith post. -/
def endsWithS (post s : String) : Bool := post.data.isSuffixOf s.data

/- ---------------------------------------------------------------------
   Remote listing client: seer.py get_repo_tree (= seer-tui.py get_tree).
   --------------------------------------------------------------------- -/

/-- One HTTP exchange for the listing endpoint of a given branch: a 2xx
    response carries the optional tree field of its JSON body, raise_for_status
    turns a non-2xx status into httpError, and any other requests failure
    (timeout, DNS, connection refused) is transportError. -/
inductive NetResponse where
  | ok (treeField : Option (List RawEntry))
  | httpError
  | transportError
deriving DecidableEq

/-- seer.py get_repo_tree: try the given branch; on a 2xx response return the
    tree field of the body (none when the field is missing); on an HTTP status
    error retry with the master branch, but only when the branch that failed
    was main; on a transport failure return none.  The fuel argument bounds
    the recursion; fuel two covers the single possible fallback call. -/
def get_repo_tree (net : String → NetResponse) : Nat → String → Option (List RawEntry)
  | 0, _ => none
  | fuel + 1, branch =>
    match net branch with
    | NetResponse.ok t => t
    | NetResponse.httpError =>
        if branch = "main" then get_repo_tree net fuel "master" else none
    | NetResponse.transportError => none

/- ---------------------------------------------------------------------
   Heuristic analyzers: seer.py lines 47 to 83.
   --------------------------------------------------------------------- -/

/-- Finding strings of analyze_project_structure (emoji and quote marks of
    the display text elided; only identity of the strings matters). -/
def src_msg : String := "src layout detected"

def monorepo_msg : String := "monorepo structure (packages/ or apps/)"

def django_msg : String := "Django project (manage.py found)"

def docker_msg : String := "Dockerized environment (Dockerfile or docker-compose.yml)"

def ci_msg : String := "CI/CD configured (GitHub Actions)"

/-- seer.py analyze_project_structure: five independent rules over the set of
    blob paths (and, for the CI rule, the tree-typed paths), each appending
    one finding string; the appends happen in source order. -/
def analyze_project_structure (tr : List RawEntry) : List String :=
  let paths := (tr.filter (fun it => it.type == EntryType.blob)).map RawEntry.path
  (if paths.any (fun p => startsWithS "src/" p) then [src_msg] else []) ++
  (if paths.any (fun p => (split_slash p).headD "" = "packages")
      || paths.any (fun p => (split_slash p).headD "" = "apps") then [monorepo_msg] else []) ++
  (if paths.any (fun p => endsWithS "manage.py" p) then [django_msg] else []) ++
  (if paths.any (fun p => endsWithS "docker-compose.yml" p || endsWithS "Dockerfile" p)
      then [docker_msg] else []) ++
  (if tr.any (fun it => it.type == EntryType.tree && it.path == ".github/workflows")
      then [ci_msg] else [])

/-- seer.py analyze_dependencies: the fixed manifest allow-list. -/
def dep_files : List String :=
  ["pyproject.toml", "requirements.txt", "package.json", "go.mod",
   "pom.xml", "build.gradle", "Cargo.toml", "Gemfile"]

/-- Python path.split with slash, last element: the basename of a path. -/
def basenameOf (p : String) : String := (split_slash p).getLastD ""

/-- seer.py analyze_dependencies: collect the basenames of all entries that
    appear in the allow-list (note: every item of the listing is inspected,
    with no filter on the type tag), as a set, returned sorted.  The set
    comprehension followed by sorted(list(.)) is modelled as dedup followed
    by an insertion sort on the string order. -/
def analyze_dependencies (tr : List RawEntry) : List String :=
  List.insertionSort strLe
    ((tr.filterMap (fun item =>
        if basenameOf item.path ∈ dep_files then some (basenameOf item.path) else none)).dedup)

/-- seer.py analyze_languages: the fixed extension-to-language table. -/
def lang_map : List (String × String) :=
  [(".py", "Python"), (".js", "JavaScript"), (".ts", "TypeScript"),
   (".tsx", "TypeScript"), (".go", "Go"), (".rs", "Rust"), (".java", "Java"),
   (".rb", "Ruby"), (".c", "C"), (".cpp", "C++"), (".md", "Markdown"),
   (".html", "HTML"), (".css", "CSS"), (".yml", "YAML"), (".json", "JSON")]

/-- Python counts[lang] = counts.get(lang, 0) + 1 under dict semantics: an
    existing key is incremented in place, a new key is appended. -/
def updateCount (counts : List (String × Nat)) (lang : String) : List (String × Nat) :=
  if counts.any (fun p => p.1 == lang) then
    counts.map (fun p => if p.1 = lang then (p.1, p.2 + 1) else p)
  else counts ++ [(lang, 1)]

/-- The body of the analyze_languages loop: for a blob item, rsplit the
    path at the last dot; when the split produced two parts, prepend a dot
    to the final part and look it up in lang_map, incrementing that
    language counter. -/
def langStep (counts : List (String × Nat)) (item : RawEntry) : List (String × Nat) :=
  if item.type = EntryType.blob then
    match rsplitDotLast item.path with
    | some pr =>
      match List.lookup (String.append "." pr.2) lang_map with
      | some lang => updateCount counts lang
      | none => counts
    | none => counts
  else counts

/-- seer.py analyze_languages: fold the loop body over the listing from an
    empty counter dict. -/
def analyze_languages (tr : List RawEntry) : List (String × Nat) :=
  tr.foldl langStep []

/-- Derived characterisation helper: the language a single path contributes
    to the histogram, built from the same splitting and table lookup as
    analyze_languages. -/
def extLangOf (p : String) : Option String :=
  match rsplitDotLast p with
  | some pr => List.lookup (String.append "." pr.2) lang_map
  | none => none

/-- Python counts.get(lang, 0): the count recorded for a language in the
    histogram dict. -/
def langCount (counts : List (String × Nat)) (lang : String) : Nat :=
  (List.lookup lang counts).getD 0

/- ---------------------------------------------------------------------
   CLI entry point: seer.py main, lines 89 to 112.
   --------------------------------------------------------------------- -/

/-- Outcome of one run of seer.py main: the process exit code and whether
    the metadata and listing requests were issued before exiting. -/
structure CliRun where
  exitCode : Nat
  metaFetched : Bool
  treeFetched : Bool
deriving DecidableEq

/-- Python truthiness of the fetched metadata dict: None and the empty dict
    are falsy. -/
def truthyDict (m : Option (List (String × String))) : Bool :=
  match m with
  | some (_ :: _) => true
  | _ => false

/-- Python truthiness of the fetched listing: None and the empty list are
    falsy. -/
def truthyList (t : Option (List RawEntry)) : Bool :=
  match t with
  | some (_ :: _) => true
  | _ => false

/-- seer.py main: repo.split at the slash must yield exactly two parts,
    otherwise the program prints an error and exits with code one before any
    request is made; then both fetches run, and the report is printed with
    exit code zero exactly when both results are truthy. -/
def mainRun (repo : String) (metadata : Option (List (String × String)))
    (file_tree : Option (List RawEntry)) : CliRun :=
  if (split_slash repo).length = 2 then
    if truthyDict metadata && truthyList file_tree then ⟨0, true, true⟩
    else ⟨1, true, true⟩
  else ⟨1, false, false⟩

/- ---------------------------------------------------------------------
   Hierarchical reconstructor: seer-tui.py SeerApp.populate_tree.
   --------------------------------------------------------------------- -/

/-- One widget node of the Textual tree: its display name (the final path
    segment), the full path stored as its data, whether it was added as a
    directory (add) or a leaf (add_leaf), and the index of its parent node
    in creation order. -/
structure TNode where
  name : String
  data : String
  isDir : Bool
  parent : Nat
deriving DecidableEq

/-- The pre-existing root widget: index zero, empty full path. -/
def rootNode : TNode := ⟨"", "", true, 0⟩

/-- The mutable state of populate_tree: the nodes created so far (index
    zero is the root) and the nodes dictionary from directory path to node
    index, seeded with the root under the empty string. -/
structure BuildState where
  nodes : List TNode
  dirMap : List (String × Nat)
deriving DecidableEq

/-- The body of the for loop of populate_tree: rpartition the path, look the
    parent path up in the dictionary defaulting to the root, then add a leaf
    for a blob or add and register a directory node for a tree item. -/
def buildStep (st : BuildState) (item : RawEntry) : BuildState :=
  let pn := rpartition_slash item.path
  let parentIdx := (List.lookup pn.1 st.dirMap).getD 0
  match item.type with
  | EntryType.blob => ⟨st.nodes ++ [⟨pn.2, item.path, false, parentIdx⟩], st.dirMap⟩
  | EntryType.tree =>
      ⟨st.nodes ++ [⟨pn.2, item.path, true, parentIdx⟩],
       (item.path, st.nodes.length) :: st.dirMap⟩

/-- sorted(self.file_tree_data, key=lambda x: x[path]): a stable sort by the
    codepoint-wise string order, modelled by insertion sort. -/
def sortEntries (l : List RawEntry) : List RawEntry :=
  List.insertionSort entryPathLe l

/-- SeerApp.populate_tree (the spec calls it buildTree): fold the loop body
    over the path-sorted listing starting from the fresh root state. -/
def populate_tree (entries : List RawEntry) : BuildState :=
  (sortEntries entries).foldl buildStep ⟨[rootNode], [("", 0)]⟩

/-- The full path reconstructed by walking parent links from a node up to
    the root, joining display names with slashes (the fuel argument makes
    the recursion structural; fuel at least the index always suffices
    because every parent link of populate_tree points to an earlier node). -/
def reconPath (nodes : List TNode) : Nat → Nat → String
  | _, 0 => ""
  | 0, _ + 1 => ""
  | fuel + 1, i + 1 =>
    match nodes[i + 1]? with
    | none => ""
    | some nd =>
      if nd.parent ≤ i then
        let p := reconPath nodes fuel nd.parent
        if p = "" then nd.name else p ++ "/" ++ nd.name
      else ""

/-- The reconstructed full path of the node at a given index. -/
def recon (nodes : List TNode) (i : Nat) : String := reconPath nodes i i

/-- For each node of a built tree, whether it is a directory node together
    with its reconstructed full path (index order). -/
def nodeSummaries (st : BuildState) : List (Bool × String) :=
  (List.range st.nodes.length).map
    (fun j => ((st.nodes.getD j rootNode).isDir, recon st.nodes j))

/- ---------------------------------------------------------------------
   Order facts about the lexicographic comparator.
   --------------------------------------------------------------------- -/

theorem lexLt_irrefl : ∀ l : List Char, lexLt l l = false
  | [] => rfl
  | a :: as => by simp [lexLt, lexLt_irrefl as]

theorem lexLt_asymm : ∀ (l1 l2 : List Char), lexLt l1 l2 = true → lexLt l2 l1 = false
  | [], [], h => by simp [lexLt] at h
  | [], _ :: _, _ => rfl
  | _ :: _, [], h => by simp [lexLt] at h
  | a :: as, b :: bs, h => by
    by_cases hab : a < b
    · have hba : ¬ b < a := lt_asymm hab
      simp [lexLt, hab, hba]
    · by_cases hba : b < a
      · simp [lexLt, hab, hba] at h
      · have ih := lexLt_asymm as bs (by simpa [lexLt, hab, hba] using h)
        simp [lexLt, hab, hba, ih]

theorem lexLt_eq_of_both_false :
    ∀ (l1 l2 : List Char), lexLt l1 l2 = false → lexLt l2 l1 = false → l1 = l2
  | [], [], _, _ => rfl
  | [], _ :: _, h1, _ => by simp [lexLt] at h1
  | _ :: _, [], _, h2 => by simp [lexLt] at h2
  | a :: as, b :: bs, h1, h2 => by
    by_cases hab : a < b
    · simp [lexLt, hab] at h1
    · by_cases hba : b < a
      · simp [lexLt, hba, lt_asymm hba] at h2
      · have hab2 : a = b := le_antisymm (not_lt.mp hba) (not_lt.mp hab)
        subst hab2
        have ih := lexLt_eq_of_both_false as bs
          (by simpa [lexLt, hab] using h1) (by simpa [lexLt, hab] using h2)
        rw [ih]

theorem lexLt_trans :
    ∀ (l1 l2 l3 : List Char),
      lexLt l1 l2 = true → lexLt l2 l3 = true → lexLt l1 l3 = true
  | [], l2, l3, h1, h2 => by
    cases l3 with
    | nil => cases l2 with
      | nil => simp [lexLt] at h1
      | cons b bs => simp [lexLt] at h2
    | cons c cs => rfl
  | _ :: _, [], _, h1, _ => by simp [lexLt] at h1
  | _ :: _, _ :: _, [], _, h2 => by simp [lexLt] at h2
  | a :: as, b :: bs, c :: cs, h1, h2 => by
    rcases lt_trichotomy a b with hab | hab | hab
    · rcases lt_trichotomy b c with hbc | hbc | hbc
      · simp [lexLt, lt_trans hab hbc]
      · subst hbc; simp [lexLt, hab]
      · simp [lexLt, hbc, lt_asymm hbc] at h2
    · subst hab
      rcases lt_trichotomy a c with hac | hac | hac
      · simp [lexLt, hac]
      · subst hac
        have ih := lexLt_trans as bs cs
          (by simpa [lexLt] using h1) (by simpa [lexLt] using h2)
        simp [lexLt, ih]
      · simp [lexLt, hac, lt_asymm hac] at h2
    · simp [lexLt, hab, lt_asymm hab] at h1

theorem lexLt_append_cons : ∀ (l : List Char) (c : Char) (t : List Char),
    lexLt l (l ++ c :: t) = true
  | [], _, _ => rfl
  | a :: as, c, t => by simp [lexLt, lexLt_append_cons as c t]

instance : IsTotal RawEntry entryPathLe :=
  ⟨fun a b => by
    unfold entryPathLe
    cases h : lexLt b.path.data a.path.data with
    | false => exact Or.inl rfl
    | true => exact Or.inr (lexLt_asymm _ _ h)⟩

instance : IsTrans RawEntry entryPathLe :=
  ⟨fun a b c h1 h2 => by
    unfold entryPathLe at h1 h2 ⊢
    cases hca : lexLt c.path.data a.path.data with
    | false => rfl
    | true =>
      cases hbc : lexLt b.path.data c.path.data with
      | false =>
        have hbceq := lexLt_eq_of_both_false _ _ hbc h2
        rw [← hbceq] at hca
        rw [hca] at h1
        exact h1
      | true =>
        have := lexLt_trans _ _ _ hbc hca
        rw [this] at h1
        exact h1⟩

instance : IsTotal String strLe :=
  ⟨fun a b => by
    unfold strLe
    cases h : lexLt b.data a.data with
    | false => exact Or.inl rfl
    | true => exact Or.inr (lexLt_asymm _ _ h)⟩

instance : IsTrans String strLe :=
  ⟨fun a b c h1 h2 => by
    unfold strLe at h1 h2 ⊢
    cases hca : lexLt c.data a.data with
    | false => rfl
    | true =>
      cases hbc : lexLt b.data c.data with
      | false =>
        have hbceq := lexLt_eq_of_both_false _ _ hbc h2
        rw [← hbceq] at hca
        rw [hca] at h1
        exact h1
      | true =>
        have := lexLt_trans _ _ _ hbc hca
        rw [this] at h1
        exact h1⟩

/- ---------------------------------------------------------------------
   Association list helpers (Python dict get).
   --------------------------------------------------------------------- -/

theorem lookup_mem {k : String} {v : Nat} :
    ∀ {m : List (String × Nat)}, List.lookup k m = some v → (k, v) ∈ m := by
  intro m
  induction m with
  | nil => intro h; simp [List.lookup] at h
  | cons p rest ih =>
    intro h
    cases hk : (k == p.1) with
    | true =>
      simp only [List.lookup, hk] at h
      injection h with h2
      have hk2 : k = p.1 := by simpa using hk
      subst hk2
      subst h2
      exact List.mem_cons_self _ _
    | false =>
      simp only [List.lookup, hk] at h
      exact List.mem_cons_of_mem _ (ih h)

theorem lookup_ne_none_of_mem {k : String} {v : Nat} :
    ∀ {m : List (String × Nat)}, (k, v) ∈ m → List.lookup k m ≠ none := by
  intro m
  induction m with
  | nil => intro h; simp at h
  | cons p rest ih =>
    intro h
    cases hk : (k == p.1) with
    | true => simp [List.lookup, hk]
    | false =>
      simp only [List.lookup, hk]
      rcases List.mem_cons.mp h with heq | hmem
      · subst heq; simp at hk
      · exact ih hmem

/-- Number of parts produced by the split model: one more than the number
    of separator occurrences. -/
theorem splitOnCharList_length (c : Char) :
    ∀ l : List Char, (splitOnCharList c l).length = l.count c + 1
  | [] => by simp [splitOnCharList]
  | x :: xs => by
    have ih := splitOnCharList_length c xs
    by_cases hx : x = c
    · simp [splitOnCharList, hx, ih, List.count_cons]
    · cases hr : splitOnCharList c xs with
      | nil => rw [hr] at ih; simp at ih
      | cons h t =>
        rw [hr] at ih
        simp only [splitOnCharList, if_neg hx, hr, List.length_cons] at ih ⊢
        simpa [List.count_cons, hx] using ih

/- ---------------------------------------------------------------------
   Claim C3.
   --------------------------------------------------------------------- -/

/-- Claim C3 (confirmed): get_repo_tree attempts the requested branch
    first (a 2xx response is returned as is); a transport-level failure
    returns none for that attempt with no branch fallback; an HTTP status
    failure on a branch other than main returns none; an HTTP status
    failure on main retries exactly once with master, whose outcome (body
    field on 2xx, none on any further failure of either kind) is final. -/
theorem get_repo_tree_spec (net : String → NetResponse) (branch : String) :
    (∀ t, net branch = NetResponse.ok t → get_repo_tree net 2 branch = t) ∧
    (net branch = NetResponse.transportError → get_repo_tree net 2 branch = none) ∧
    (net branch = NetResponse.httpError → branch ≠ "main" →
      get_repo_tree net 2 branch = none) ∧
    (net branch = NetResponse.httpError → branch = "main" →
      get_repo_tree net 2 branch =
        match net "master" with
        | NetResponse.ok t => t
        | NetResponse.httpError => none
        | NetResponse.transportError => none) := by
  refine ⟨?_, ?_, ?_, ?_⟩
  · intro t h; simp [get_repo_tree, h]
  · intro h; simp [get_repo_tree, h]
  · intro h hb; simp [get_repo_tree, h, hb]
  · intro h hb
    subst hb
    simp only [get_repo_tree, h, if_pos rfl]
    cases hm : net "master" with
    | ok t => simp [get_repo_tree, hm]
    | httpError => simp [get_repo_tree, hm]
    | transportError => simp [get_repo_tree, hm]

/-- Closed instantiation of get_repo_tree_spec at concrete oracles: a 2xx
    main; an HTTP-failing main with a 2xx master (fallback taken); a
    transport failure (no fallback); and an HTTP-failing develop branch
    whose master fallback is never taken although master would succeed. -/
theorem get_repo_tree_spec_witness :
    get_repo_tree (fun _ => NetResponse.ok (some [⟨"a", EntryType.blob⟩])) 2 "main"
        = some [⟨"a", EntryType.blob⟩] ∧
    get_repo_tree (fun b => if b = "main" then NetResponse.httpError
        else NetResponse.ok (some [⟨"m", EntryType.blob⟩])) 2 "main"
        = some [⟨"m", EntryType.blob⟩] ∧
    get_repo_tree (fun _ => NetResponse.transportError) 2 "main" = none ∧
    get_repo_tree (fun b => if b = "develop" then NetResponse.httpError
        else NetResponse.ok (some [⟨"m", EntryType.blob⟩])) 2 "develop" = none := by
  refine ⟨(get_repo_tree_spec _ "main").1 _ rfl, ?_,
    (get_repo_tree_spec _ "main").2.1 rfl,
    (get_repo_tree_spec _ "develop").2.2.1 (by decide) (by decide)⟩
  have h := (get_repo_tree_spec (fun b => if b = "main" then NetResponse.httpError
      else NetResponse.ok (some [⟨"m", EntryType.blob⟩])) "main").2.2.2 (by decide) rfl
  rw [h]
  decide

/- ---------------------------------------------------------------------
   Claim C10.
   --------------------------------------------------------------------- -/

/-- Claim C10 (confirmed): a 2xx response for main whose body lacks the
    tree field makes get_repo_tree return none immediately; the master
    fallback is not attempted, whatever answer master would have given
    (the oracle is arbitrary away from main). -/
theorem get_repo_tree_missing_field_no_fallback (net : String → NetResponse)
    (h : net "main" = NetResponse.ok none) : get_repo_tree net 2 "main" = none := by
  simp [get_repo_tree, h]

/-- Closed instantiation: the main body lacks the tree field while master
    would have returned a listing; the result is still none. -/
theorem get_repo_tree_missing_field_no_fallback_witness :
    get_repo_tree (fun b => if b = "main" then NetResponse.ok none
        else NetResponse.ok (some [⟨"a", EntryType.blob⟩])) 2 "main" = none :=
  get_repo_tree_missing_field_no_fallback _ (by decide)

/- ---------------------------------------------------------------------
   Claim C9.
   --------------------------------------------------------------------- -/

/-- Claim C9 (confirmed): when the repo argument does not contain exactly
    one slash, main exits with code one and neither the metadata request
    nor the listing request is issued (the two-way unpacking of
    repo.split happens before any network access). -/
theorem mainRun_malformed_no_network (repo : String)
    (metadata : Option (List (String × String))) (file_tree : Option (List RawEntry))
    (h : repo.data.count '/' ≠ 1) :
    mainRun repo metadata file_tree = ⟨1, false, false⟩ := by
  have hlen : (split_slash repo).length = repo.data.count '/' + 1 := by
    unfold split_slash
    rw [List.length_map, splitOnCharList_length]
  unfold mainRun
  rw [if_neg (by rw [hlen]; omega)]

/-- Closed instantiation at the spec example notarepo. -/
theorem mainRun_malformed_no_network_witness :
    mainRun "notarepo" none none = ⟨1, false, false⟩ :=
  mainRun_malformed_no_network _ _ _ (by decide)

/- ---------------------------------------------------------------------
   Claim C8.
   --------------------------------------------------------------------- -/

/-- Claim C8 (counterexample): with a well-formed identifier, truthy
    metadata and a successfully retrieved but EMPTY listing, main exits
    with code one, not zero: the truthiness test of seer.py line 108
    conflates an empty listing with a failed fetch. -/
theorem mainRun_empty_listing_counterexample :
    (mainRun "owner/name" (some [("description", "d")])
        (some ([] : List RawEntry))).exitCode = 1 := by decide

/-- Claim C8 (amended): the exit code is zero exactly when the identifier
    splits into two parts at slashes and both fetched values are truthy,
    i.e. present AND non-empty; in every other case, including a
    retrieved-but-empty listing or metadata dict, the exit code is one. -/
theorem mainRun_exit_spec (repo : String) (md : Option (List (String × String)))
    (ft : Option (List RawEntry)) :
    ((mainRun repo md ft).exitCode = 0 ↔
      ((split_slash repo).length = 2 ∧ truthyDict md = true ∧ truthyList ft = true)) ∧
    ((mainRun repo md ft).exitCode = 0 ∨ (mainRun repo md ft).exitCode = 1) := by
  unfold mainRun
  split_ifs with h1 h2 <;> simp_all

/- ---------------------------------------------------------------------
   Claim C1.
   --------------------------------------------------------------------- -/

/-- Claim C1 (counterexample): for the single File entry x/y.txt with no
    x Directory entry, populate_tree attaches the leaf y.txt DIRECTLY to
    the root: the finished tree consists of the root and that one leaf
    whose parent index is zero, and no node named x is synthesized. -/
theorem populate_tree_no_implicit_ancestor_counterexample :
    (populate_tree [⟨"x/y.txt", EntryType.blob⟩]).nodes
        = [rootNode, ⟨"y.txt", "x/y.txt", false, 0⟩] ∧
    ((populate_tree [⟨"x/y.txt", EntryType.blob⟩]).nodes.all
        (fun nd => nd.name != "x")) = true := by decide

/-- Claim C1 (amended): for the entry list with the single File x/y.txt
    and no x Directory entry, populate_tree attaches the leaf y.txt
    directly under the root (the dictionary lookup of the unknown parent
    path x defaults to the root) rather than dropping it; no implicit x
    ancestor is created, so the reconstructed path of the leaf is y.txt. -/
theorem populate_tree_attaches_missing_parent_to_root :
    (populate_tree [⟨"x/y.txt", EntryType.blob⟩]).nodes.length = 2 ∧
    (populate_tree [⟨"x/y.txt", EntryType.blob⟩]).nodes.getD 1 rootNode
        = ⟨"y.txt", "x/y.txt", false, 0⟩ ∧
    nodeSummaries (populate_tree [⟨"x/y.txt", EntryType.blob⟩])
        = [(true, ""), (false, "y.txt")] := by decide

/- ---------------------------------------------------------------------
   Claim C2, concrete counterexample (the general theorem follows below).
   --------------------------------------------------------------------- -/

/-- Claim C2 (counterexample): for the single File entry p/q.txt, whose
    parent directory p is never listed, the built tree has NO leaf whose
    root-walk reconstruction equals p/q.txt: the only leaf reconstructs
    to q.txt, so walking from the root does not recover the original
    path for every entry sequence. -/
theorem populate_tree_reconstruction_counterexample :
    nodeSummaries (populate_tree [⟨"p/q.txt", EntryType.blob⟩])
        = [(true, ""), (false, "q.txt")] ∧
    (nodeSummaries (populate_tree [⟨"p/q.txt", EntryType.blob⟩])).count
        (false, "p/q.txt") = 0 := by decide

/- ---------------------------------------------------------------------
   Claim C5.
   --------------------------------------------------------------------- -/

/-- Claim C5 (counterexample): an entry with an empty path is NOT
    skipped: populate_tree inserts it as a leaf (named by the empty
    string) under the root, so it does become a node of the tree. -/
theorem populate_tree_empty_path_counterexample :
    (populate_tree [⟨"", EntryType.blob⟩]).nodes = [rootNode, ⟨"", "", false, 0⟩] ∧
    (populate_tree [⟨"", EntryType.blob⟩]).nodes.length ≠ 1 := by decide

/-- Claim C5 (amended): populate_tree never skips an entry and never
    fails: it is total and produces exactly one node per entry besides
    the root; in particular an empty-path File entry becomes an
    empty-named leaf under the root rather than being skipped. -/
theorem populate_tree_total_no_skip :
    (∀ entries : List RawEntry,
      (populate_tree entries).nodes.length = entries.length + 1) ∧
    (populate_tree [⟨"", EntryType.blob⟩]).nodes = [rootNode, ⟨"", "", false, 0⟩] := by
  constructor
  · intro entries
    have hfold : ∀ (todo : List RawEntry) (st : BuildState),
        ((todo.foldl buildStep st).nodes).length = st.nodes.length + todo.length := by
      intro todo
      induction todo with
      | nil => intro st; simp
      | cons it rest ih =>
        intro st
        rw [List.foldl_cons, ih]
        have hstep : (buildStep st it).nodes.length = st.nodes.length + 1 := by
          unfold buildStep
          cases it.type <;> simp
        rw [hstep]
        simp only [List.length_cons]
        omega
    unfold populate_tree
    rw [hfold]
    unfold sortEntries
    rw [List.length_insertionSort]
    simp [Nat.add_comm]
  · decide

/- ---------------------------------------------------------------------
   Claim C6, concrete counterexample.
   --------------------------------------------------------------------- -/

/-- Claim C6 (counterexample): the dependency detector inspects Directory
    entries too: a tree-typed entry named Gemfile is reported although the
    listing contains no File entry at all. -/
theorem analyze_dependencies_kind_counterexample :
    analyze_dependencies [⟨"Gemfile", EntryType.tree⟩] = ["Gemfile"] ∧
    analyze_dependencies [⟨"Gemfile", EntryType.tree⟩] ≠ [] := by decide

/- ---------------------------------------------------------------------
   Claim C7, concrete counterexample.
   --------------------------------------------------------------------- -/

/-- Claim C7 (counterexample): the containerization finding fires on a
    File whose name merely ENDS with Dockerfile: the single blob
    xDockerfile produces the finding although no entry is named exactly
    Dockerfile or docker-compose.yml. -/
theorem analyze_project_structure_suffix_counterexample :
    analyze_project_structure [⟨"xDockerfile", EntryType.blob⟩] = [docker_msg] ∧
    ("xDockerfile" : String) ≠ "Dockerfile" ∧
    ("xDockerfile" : String) ≠ "docker-compose.yml" := by decide

/- ---------------------------------------------------------------------
   Claim C4: dict-update lemmas and the histogram characterisation.
   --------------------------------------------------------------------- -/

/-- Claim C4 (counterexample): the histogram does not skip dotfiles: the
    single File entry .py, whose only dot is at position zero, is counted
    as Python instead of being excluded. -/
theorem analyze_languages_dotfile_counterexample :
    analyze_languages [⟨".py", EntryType.blob⟩] = [("Python", 1)] ∧
    analyze_languages [⟨".py", EntryType.blob⟩] ≠ [] := by decide

theorem lookup_cons_true {x k : String} {v : Nat} {rest : List (String × Nat)}
    (h : (x == k) = true) : List.lookup x ((k, v) :: rest) = some v := by
  simp [List.lookup, h]

theorem lookup_cons_false {x k : String} {v : Nat} {rest : List (String × Nat)}
    (h : (x == k) = false) : List.lookup x ((k, v) :: rest) = List.lookup x rest := by
  simp [List.lookup, h]

theorem langCount_cons_true {x k : String} (v : Nat) (rest : List (String × Nat))
    (h : (x == k) = true) : langCount ((k, v) :: rest) x = v := by
  unfold langCount
  rw [lookup_cons_true h]
  rfl

theorem langCount_cons_false {x k : String} (v : Nat) (rest : List (String × Nat))
    (h : (x == k) = false) : langCount ((k, v) :: rest) x = langCount rest x := by
  unfold langCount
  rw [lookup_cons_false h]

theorem langCount_map_ne (l x : String) (hxl : x ≠ l) :
    ∀ counts : List (String × Nat),
      langCount (counts.map (fun p => if p.1 = l then (p.1, p.2 + 1) else p)) x
        = langCount counts x
  | [] => rfl
  | ⟨pk, pv⟩ :: rest => by
    have ih := langCount_map_ne l x hxl rest
    by_cases hpl : pk = l
    · subst hpl
      have hmap : List.map (fun p => if p.1 = pk then (p.1, p.2 + 1) else p) ((pk, pv) :: rest)
          = (pk, pv + 1) :: List.map (fun p => if p.1 = pk then (p.1, p.2 + 1) else p) rest := by
        simp
      rw [hmap]
      cases hk : (x == pk) with
      | true => exact absurd (eq_of_beq hk) hxl
      | false =>
        rw [langCount_cons_false _ _ hk, langCount_cons_false _ _ hk]
        exact ih
    · have hmap : List.map (fun p => if p.1 = l then (p.1, p.2 + 1) else p) ((pk, pv) :: rest)
          = (pk, pv) :: List.map (fun p => if p.1 = l then (p.1, p.2 + 1) else p) rest := by
        simp [hpl]
      rw [hmap]
      cases hk : (x == pk) with
      | true => rw [langCount_cons_true _ _ hk, langCount_cons_true _ _ hk]
      | false =>
        rw [langCount_cons_false _ _ hk, langCount_cons_false _ _ hk]
        exact ih

theorem langCount_map_self (l : String) :
    ∀ counts : List (String × Nat), (counts.any (fun p => p.1 == l)) = true →
      langCount (counts.map (fun p => if p.1 = l then (p.1, p.2 + 1) else p)) l
        = langCount counts l + 1
  | [], h => by simp at h
  | ⟨pk, pv⟩ :: rest, h => by
    by_cases hpl : pk = l
    · subst hpl
      have hmap : List.map (fun p => if p.1 = pk then (p.1, p.2 + 1) else p) ((pk, pv) :: rest)
          = (pk, pv + 1) :: List.map (fun p => if p.1 = pk then (p.1, p.2 + 1) else p) rest := by
        simp
      rw [hmap, langCount_cons_true _ _ (by simp), langCount_cons_true _ _ (by simp)]
    · have hh : (pk == l) = false := by
        cases hh2 : (pk == l) with
        | true => exact absurd (eq_of_beq hh2) hpl
        | false => rfl
      have hk : (l == pk) = false := by
        cases hlk : (l == pk) with
        | true => exact absurd (eq_of_beq hlk).symm hpl
        | false => rfl
      have hrest : (rest.any (fun p => p.1 == l)) = true := by
        simpa [List.any_cons, hh] using h
      have hmap : List.map (fun p => if p.1 = l then (p.1, p.2 + 1) else p) ((pk, pv) :: rest)
          = (pk, pv) :: List.map (fun p => if p.1 = l then (p.1, p.2 + 1) else p) rest := by
        simp [hpl]
      rw [hmap, langCount_cons_false _ _ hk, langCount_cons_false _ _ hk]
      exact langCount_map_self l rest hrest

theorem langCount_append_new (l x : String) :
    ∀ counts : List (String × Nat), (counts.any (fun p => p.1 == l)) = false →
      langCount (counts ++ [(l, 1)]) x = langCount counts x + (if x = l then 1 else 0)
  | [], _ => by
    by_cases hxl : x = l
    · subst hxl
      rw [List.nil_append, langCount_cons_true _ _ (by simp), if_pos rfl]
      rfl
    · have hk : (x == l) = false := by
        cases hlk : (x == l) with
        | true => exact absurd (eq_of_beq hlk) hxl
        | false => rfl
      rw [List.nil_append, langCount_cons_false _ _ hk, if_neg hxl]
      rfl
  | ⟨pk, pv⟩ :: rest, h => by
    have hsplit : ((pk == l) || rest.any (fun p => p.1 == l)) = false := by
      simpa [List.any_cons] using h
    have hhead : (pk == l) = false := by
      cases hh : (pk == l) with
      | true => rw [hh] at hsplit; simp at hsplit
      | false => rfl
    have hrest : (rest.any (fun p => p.1 == l)) = false := by
      cases hr : (rest.any (fun p => p.1 == l)) with
      | true => rw [hr] at hsplit; simp at hsplit
      | false => rfl
    rw [List.cons_append]
    cases hk : (x == pk) with
    | true =>
      have hpkl : ¬ pk = l := fun hc => by rw [hc] at hhead; simp at hhead
      have hxl : ¬ x = l := fun hc => hpkl ((eq_of_beq hk).symm.trans hc)
      rw [langCount_cons_true _ _ hk, langCount_cons_true _ _ hk, if_neg hxl]
      rfl
    | false =>
      rw [langCount_cons_false _ _ hk, langCount_cons_false _ _ hk]
      exact langCount_append_new l x rest hrest

theorem langCount_updateCount (counts : List (String × Nat)) (l x : String) :
    langCount (updateCount counts l) x
      = langCount counts x + (if x = l then 1 else 0) := by
  unfold updateCount
  cases hany : (counts.any (fun p => p.1 == l)) with
  | true =>
    rw [if_pos rfl]
    by_cases hxl : x = l
    · subst hxl
      rw [langCount_map_self x counts hany, if_pos rfl]
    · rw [langCount_map_ne l x hxl counts, if_neg hxl]
      rfl
  | false =>
    rw [if_neg Bool.false_ne_true]
    exact langCount_append_new l x counts hany

theorem langCount_langStep (counts : List (String × Nat)) (item : RawEntry)
    (lang : String) :
    langCount (langStep counts item) lang
      = langCount counts lang
        + (if (item.type == EntryType.blob && extLangOf item.path == some lang) = true
           then 1 else 0) := by
  cases hty : item.type with
  | tree =>
    have hstep : langStep counts item = counts := by
      unfold langStep
      simp [hty]
    simp [hstep, hty]
  | blob =>
    cases hsplit : rsplitDotLast item.path with
    | none =>
      have hstep : langStep counts item = counts := by
        unfold langStep
        simp [hty, hsplit]
      have hext : extLangOf item.path = none := by
        unfold extLangOf
        simp [hsplit]
      simp [hstep, hext, hty]
    | some pr =>
      cases hlook : List.lookup (String.append "." pr.2) lang_map with
      | none =>
        have hstep : langStep counts item = counts := by
          unfold langStep
          simp [hty, hsplit, hlook]
        have hext : extLangOf item.path = none := by
          unfold extLangOf
          simp [hsplit, hlook]
        simp [hstep, hext, hty]
      | some lang2 =>
        have hstep : langStep counts item = updateCount counts lang2 := by
          unfold langStep
          simp [hty, hsplit, hlook]
        have hext : extLangOf item.path = some lang2 := by
          unfold extLangOf
          simp [hsplit, hlook]
        rw [hstep, hext, langCount_updateCount]
        by_cases hl : lang = lang2
        · subst hl
          simp [hty]
        · have hbeq : (some lang2 == some lang) = false := by
            cases hbe : (some lang2 == some lang) with
            | true => exact absurd (eq_of_beq hbe) (by simpa using (Ne.symm hl))
            | false => rfl
          simp [hl, hbeq]

theorem analyze_languages_fold (lang : String) :
    ∀ (tr : List RawEntry) (counts : List (String × Nat)),
      langCount (tr.foldl langStep counts) lang
        = langCount counts lang
          + tr.countP (fun it => it.type == EntryType.blob && extLangOf it.path == some lang)
  | [], counts => by simp
  | it :: rest, counts => by
    rw [List.foldl_cons, analyze_languages_fold lang rest (langStep counts it),
      langCount_langStep, List.countP_cons]
    omega

/-- Claim C4 (amended): for every File entry the histogram splits the full
    path at the LAST dot; entries whose path contains no dot at all are
    skipped; otherwise a dot plus the final part is looked up in the fixed
    extension table and, when recognised, that language counter is
    incremented (unrecognised extensions are silently excluded).  A dot at
    position zero gets no special treatment, so a dotfile such as .py is
    counted.  Formally, the recorded count of each language equals the
    number of File entries whose extension maps to it; the spec example
    listing yields exactly Python two. -/
theorem analyze_languages_spec :
    (∀ (tr : List RawEntry) (lang : String),
      langCount (analyze_languages tr) lang
        = tr.countP (fun it => it.type == EntryType.blob && extLangOf it.path == some lang)) ∧
    analyze_languages [⟨"a.py", EntryType.blob⟩, ⟨"b.py", EntryType.blob⟩,
        ⟨"c.unknownext", EntryType.blob⟩, ⟨"README", EntryType.blob⟩]
      = [("Python", 2)] := by
  constructor
  · intro tr lang
    unfold analyze_languages
    rw [analyze_languages_fold]
    simp [langCount, List.lookup]
  · decide

/- ---------------------------------------------------------------------
   Claim C6, general characterisation.
   --------------------------------------------------------------------- -/

/-- Claim C6 (amended): the dependency detector checks the basename (the
    final slash-separated segment) of EVERY entry, File and Directory
    alike, against the fixed allow-list, and returns the matched basenames
    deduplicated and sorted in lexical order. -/
theorem analyze_dependencies_spec (tr : List RawEntry) :
    (analyze_dependencies tr).Sorted strLe ∧
    (analyze_dependencies tr).Nodup ∧
    ∀ b : String, b ∈ analyze_dependencies tr ↔
      (b ∈ dep_files ∧ ∃ it ∈ tr, basenameOf it.path = b) := by
  refine ⟨List.sorted_insertionSort strLe _,
    ((List.perm_insertionSort strLe _).nodup_iff).mpr (List.nodup_dedup _), ?_⟩
  intro b
  unfold analyze_dependencies
  rw [List.mem_insertionSort, List.mem_dedup, List.mem_filterMap]
  constructor
  · rintro ⟨it, hit, heq⟩
    by_cases hb : basenameOf it.path ∈ dep_files
    · rw [if_pos hb] at heq
      injection heq with heq2
      subst heq2
      exact ⟨hb, it, hit, rfl⟩
    · rw [if_neg hb] at heq
      cases heq
  · rintro ⟨hb, it, hit, heq⟩
    refine ⟨it, hit, ?_⟩
    subst heq
    rw [if_pos hb]

/- ---------------------------------------------------------------------
   Claim C7, general characterisation.
   --------------------------------------------------------------------- -/

theorem mem_if_singleton (x m : String) (c : Prop) [Decidable c] :
    x ∈ (if c then [m] else []) ↔ (c ∧ x = m) := by
  split_ifs with h <;> simp [h]

theorem count_if_singleton_ne (x m : String) (c : Prop) [Decidable c] (hxm : x ≠ m) :
    (if c then [m] else []).count x = 0 := by
  split_ifs with h
  · simp [List.count_cons, hxm]
  · rfl

theorem count_if_singleton_le (x : String) (c : Prop) [Decidable c] :
    (if c then [x] else []).count x ≤ 1 := by
  split_ifs <;> simp

/-- Claim C7 (amended): the containerization finding is emitted exactly
    when some File entry's PATH ends with Dockerfile or with
    docker-compose.yml (a suffix test, which covers a file named exactly
    Dockerfile or docker-compose.yml at any depth but also fires on names
    that merely end with those strings); at most one such finding is
    emitted per analysis however many files match. -/
theorem analyze_project_structure_docker_spec (tr : List RawEntry) :
    (docker_msg ∈ analyze_project_structure tr ↔
      ∃ it ∈ tr, it.type = EntryType.blob ∧
        (endsWithS "docker-compose.yml" it.path = true ∨
          endsWithS "Dockerfile" it.path = true)) ∧
    (analyze_project_structure tr).count docker_msg ≤ 1 := by
  have h1 : docker_msg ≠ src_msg := by decide
  have h2 : docker_msg ≠ monorepo_msg := by decide
  have h3 : docker_msg ≠ django_msg := by decide
  have h5 : docker_msg ≠ ci_msg := by decide
  constructor
  · simp only [analyze_project_structure, List.mem_append, mem_if_singleton]
    constructor
    · rintro ((((⟨-, hc⟩ | ⟨-, hc⟩) | ⟨-, hc⟩) | ⟨hc, -⟩) | ⟨-, hc⟩)
      · exact absurd hc h1
      · exact absurd hc h2
      · exact absurd hc h3
      · obtain ⟨p, hp, hends⟩ := List.any_eq_true.mp hc
        obtain ⟨it, hitf, rfl⟩ := List.mem_map.mp hp
        obtain ⟨hit, hty⟩ := List.mem_filter.mp hitf
        exact ⟨it, hit, by simpa using hty, by simpa using hends⟩
      · exact absurd hc h5
    · rintro ⟨it, hit, hty, hends⟩
      refine Or.inl (Or.inr ⟨?_, trivial⟩)
      refine List.any_eq_true.mpr ⟨it.path,
        List.mem_map.mpr ⟨it, List.mem_filter.mpr ⟨hit, by simpa using hty⟩, rfl⟩, ?_⟩
      simpa using hends
  · simp only [analyze_project_structure, List.count_append]
    rw [count_if_singleton_ne docker_msg src_msg _ h1,
      count_if_singleton_ne docker_msg monorepo_msg _ h2,
      count_if_singleton_ne docker_msg django_msg _ h3,
      count_if_singleton_ne docker_msg ci_msg _ h5]
    simpa using count_if_singleton_le docker_msg _

/- ---------------------------------------------------------------------
   Claim C2: facts about rpartition_slash and the walk-up reconstruction,
   leading to the general reconstruction theorem.
   --------------------------------------------------------------------- -/

theorem dropWhile_head_false {p : Char → Bool} :
    ∀ {l : List Char} {c : Char} {t : List Char}, l.dropWhile p = c :: t → p c = false := by
  intro l
  induction l with
  | nil => intro c t h; simp [List.dropWhile] at h
  | cons x xs ih =>
    intro c t h
    cases hp : p x with
    | true =>
      simp [List.dropWhile_cons, hp] at h
      exact ih h
    | false =>
      simp [List.dropWhile_cons, hp] at h
      rw [← h.1]
      exact hp

theorem string_data_append (a b : String) : (a ++ b).data = a.data ++ b.data := by
  cases a
  cases b
  rfl

theorem string_eq_of_data {a b : String} (h : a.data = b.data) : a = b := by
  cases a
  cases b
  exact congrArg String.mk h

/-- Python rpartition correctness: either the string has no slash and the
    pair is (empty, s), or s splits as parent, slash, name with no slash
    in the name. -/
theorem rpartition_slash_spec (s : String) :
    (('/' ∉ s.data) ∧ (rpartition_slash s).1 = "" ∧ (rpartition_slash s).2 = s)
    ∨ (s.data = (rpartition_slash s).1.data ++ '/' :: (rpartition_slash s).2.data
        ∧ '/' ∉ (rpartition_slash s).2.data) := by
  cases hdrop : s.data.reverse.dropWhile notSlash with
  | nil =>
    left
    have hpair : rpartition_slash s = ("", s) := by
      unfold rpartition_slash
      rw [hdrop]
    refine ⟨?_, by rw [hpair], by rw [hpair]⟩
    intro hmem
    have hmem2 : '/' ∈ s.data.reverse := List.mem_reverse.mpr hmem
    have := (List.dropWhile_eq_nil_iff.mp hdrop) _ hmem2
    simp [notSlash] at this
  | cons c before =>
    right
    have hpair : rpartition_slash s
        = (String.mk before.reverse,
           String.mk ((s.data.reverse.takeWhile notSlash).reverse)) := by
      unfold rpartition_slash
      rw [hdrop]
    have hc : c = '/' := by
      have := dropWhile_head_false hdrop
      simpa [notSlash] using this
    have hsplitrev : s.data.reverse.takeWhile notSlash ++ c :: before = s.data.reverse := by
      rw [← hdrop]
      exact List.takeWhile_append_dropWhile _ _
    have hdata : s.data
        = before.reverse ++ c :: (s.data.reverse.takeWhile notSlash).reverse := by
      conv_lhs => rw [← List.reverse_reverse s.data, ← hsplitrev]
      simp
    constructor
    · rw [hpair]
      rw [hc] at hdata
      exact hdata
    · rw [hpair]
      intro hmem
      have hmem2 : '/' ∈ s.data.reverse.takeWhile notSlash := by
        simpa using hmem
      have := List.mem_takeWhile_imp hmem2
      simp [notSlash] at this

theorem reconPath_zero (nodes : List TNode) (f : Nat) : reconPath nodes f 0 = "" := by
  cases f <;> rfl

theorem reconPath_fuel (nodes : List TNode) :
    ∀ (f1 f2 i : Nat), i ≤ f1 → i ≤ f2 → reconPath nodes f1 i = reconPath nodes f2 i := by
  intro f1
  induction f1 with
  | zero =>
    intro f2 i h1 h2
    have hz : i = 0 := Nat.le_zero.mp h1
    subst hz
    rw [reconPath_zero, reconPath_zero]
  | succ f ih =>
    intro f2 i h1 h2
    cases i with
    | zero => rw [reconPath_zero, reconPath_zero]
    | succ j =>
      cases f2 with
      | zero => omega
      | succ g =>
        simp only [reconPath]
        cases hnd : nodes[j + 1]? with
        | none => rfl
        | some nd =>
          simp only [hnd]
          by_cases hp : nd.parent ≤ j
          · rw [if_pos hp, if_pos hp, ih g nd.parent (by omega) (by omega)]
          · rw [if_neg hp, if_neg hp]

theorem reconPath_append (nodes ext : List TNode) :
    ∀ (f i : Nat), i < nodes.length → reconPath (nodes ++ ext) f i = reconPath nodes f i := by
  intro f
  induction f with
  | zero =>
    intro i _
    cases i <;> rfl
  | succ f ih =>
    intro i hi
    cases i with
    | zero => rfl
    | succ j =>
      simp only [reconPath]
      rw [List.getElem?_append_left hi]
      cases hnd : nodes[j + 1]? with
      | none => rfl
      | some nd =>
        simp only [hnd]
        by_cases hp : nd.parent ≤ j
        · rw [if_pos hp, if_pos hp, ih nd.parent (by omega)]
        · rw [if_neg hp, if_neg hp]

theorem recon_append (nodes ext : List TNode) (i : Nat) (hi : i < nodes.length) :
    recon (nodes ++ ext) i = recon nodes i :=
  reconPath_append nodes ext i i hi

/-- A proper slash extension of a path sorts strictly after the path. -/
theorem lexLt_of_slash_extension (p n q : String)
    (h : q.data = p.data ++ '/' :: n.data) : lexLt p.data q.data = true := by
  rw [h]
  exact lexLt_append_cons _ _ _

/-- Reconstructed path of a node appended at the end of the node list: the
    parent reconstruction joined with a slash and the node name (name alone
    under an empty parent path). -/
theorem recon_snoc (nodes : List TNode) (nd : TNode)
    (hlen : 0 < nodes.length) (hpar : nd.parent < nodes.length) :
    recon (nodes ++ [nd]) nodes.length
      = (if recon nodes nd.parent = "" then nd.name
         else recon nodes nd.parent ++ "/" ++ nd.name) := by
  obtain ⟨m, hm⟩ : ∃ m, nodes.length = m + 1 := ⟨nodes.length - 1, by omega⟩
  have hle : nd.parent ≤ m := by omega
  have hfix : reconPath (nodes ++ [nd]) m nd.parent = recon nodes nd.parent := by
    rw [reconPath_fuel (nodes ++ [nd]) m nd.parent nd.parent hle (Nat.le_refl _)]
    exact reconPath_append nodes [nd] nd.parent nd.parent hpar
  show reconPath (nodes ++ [nd]) nodes.length nodes.length = _
  rw [hm]
  simp only [reconPath]
  have hget : (nodes ++ [nd])[m + 1]? = some nd := by
    rw [← hm]
    exact List.getElem?_concat_length nodes nd
  simp only [hget]
  rw [if_pos hle, hfix]

/-- Invariant of the populate_tree fold over the path-sorted listing: given
    sound state (every dictionary binding points at a node reconstructing
    to its path, every already-processed directory is bound, nodes so far
    mirror the processed entries and every non-root node reconstructs to
    its stored data path), processing the remaining entries preserves all
    of it.  The listing hypotheses are: the whole list is sorted, no path
    starts with a slash, and the parent path of every remaining entry is
    listed as a Directory somewhere in the listing. -/
theorem buildSteps_invariant :
    ∀ (todo done : List RawEntry) (st : BuildState),
      List.Pairwise entryPathLe (done ++ todo) →
      (∀ e ∈ todo, e.path.data.head? ≠ some '/') →
      (∀ e ∈ todo, (rpartition_slash e.path).1 ≠ "" →
        ∃ d ∈ done ++ todo, d.type = EntryType.tree
          ∧ d.path = (rpartition_slash e.path).1) →
      0 < st.nodes.length →
      (∀ pi ∈ st.dirMap, pi.2 < st.nodes.length ∧ recon st.nodes pi.2 = pi.1) →
      (∀ d ∈ done, d.type = EntryType.tree → ∃ i, (d.path, i) ∈ st.dirMap) →
      (st.nodes.map (fun nd => (nd.isDir, nd.data))
        = (true, "") :: done.map (fun d => (d.type == EntryType.tree, d.path))) →
      (∀ j nd, 0 < j → st.nodes[j]? = some nd → recon st.nodes j = nd.data) →
      ((todo.foldl buildStep st).nodes.map (fun nd => (nd.isDir, nd.data))
        = (true, "")
          :: (done ++ todo).map (fun d => (d.type == EntryType.tree, d.path))) ∧
      (∀ j nd, 0 < j → (todo.foldl buildStep st).nodes[j]? = some nd →
        recon (todo.foldl buildStep st).nodes j = nd.data)
  | [], done, st => by
    intro _ _ _ _ _ _ hmap hrecon
    constructor
    · simpa using hmap
    · simpa using hrecon
  | e :: rest, done, st => by
    intro hpair hA hB hlen hdir hpresent hmap hrecon
    have hAe : e.path.data.head? ≠ some '/' := hA e (List.mem_cons_self e rest)
    have hparent_bound :
        (List.lookup (rpartition_slash e.path).1 st.dirMap).getD 0 < st.nodes.length := by
      rcases hlk : List.lookup (rpartition_slash e.path).1 st.dirMap with _ | i
      · simpa using hlen
      · have hb := (hdir _ (lookup_mem hlk)).1
        simpa using hb
    have hparent_recon :
        recon st.nodes ((List.lookup (rpartition_slash e.path).1 st.dirMap).getD 0)
          = (rpartition_slash e.path).1 := by
      rcases hlk : List.lookup (rpartition_slash e.path).1 st.dirMap with _ | i
      · by_cases hp1 : (rpartition_slash e.path).1 = ""
        · rw [hp1]
          rfl
        · exfalso
          obtain ⟨d, hd, hdtree, hdpath⟩ := hB e (List.mem_cons_self _ _) hp1
          have hext : e.path.data
              = (rpartition_slash e.path).1.data ++ '/' :: (rpartition_slash e.path).2.data := by
            rcases rpartition_slash_spec e.path with ⟨-, h1, -⟩ | ⟨h1, -⟩
            · exact absurd h1 hp1
            · exact h1
          have hlt : lexLt (rpartition_slash e.path).1.data e.path.data = true :=
            lexLt_of_slash_extension _ _ _ hext
          rcases List.mem_append.mp hd with hdone | hcur
          · obtain ⟨i, hi⟩ := hpresent d hdone hdtree
            rw [hdpath] at hi
            exact lookup_ne_none_of_mem hi hlk
          · rcases List.mem_cons.mp hcur with heq | hrest2
            · rw [heq] at hdpath
              rw [← hdpath] at hlt
              rw [lexLt_irrefl] at hlt
              exact Bool.false_ne_true hlt
            · have hpair2 : List.Pairwise entryPathLe (e :: rest) :=
                (List.pairwise_append.mp hpair).2.1
              have hled : entryPathLe e d := (List.pairwise_cons.mp hpair2).1 d hrest2
              unfold entryPathLe at hled
              rw [hdpath] at hled
              rw [hlt] at hled
              simp at hled
      · have h2 := (hdir _ (lookup_mem hlk)).2
        simpa using h2
    have hkey : ∀ b : Bool,
        recon (st.nodes ++ [⟨(rpartition_slash e.path).2, e.path, b,
            (List.lookup (rpartition_slash e.path).1 st.dirMap).getD 0⟩]) st.nodes.length
          = e.path := by
      intro b
      rw [recon_snoc _ _ hlen hparent_bound]
      dsimp only
      rw [hparent_recon]
      by_cases hp1 : (rpartition_slash e.path).1 = ""
      · rw [if_pos hp1]
        rcases rpartition_slash_spec e.path with ⟨-, -, h2⟩ | ⟨h1, -⟩
        · exact h2
        · exfalso
          apply hAe
          rw [hp1] at h1
          rw [h1]
          rfl
      · rw [if_neg hp1]
        rcases rpartition_slash_spec e.path with ⟨-, h1, -⟩ | ⟨h1, -⟩
        · exact absurd h1 hp1
        · apply string_eq_of_data
          rw [string_data_append, string_data_append, h1]
          simp
    have hbs : buildStep st e
        = ⟨st.nodes ++ [⟨(rpartition_slash e.path).2, e.path, e.type == EntryType.tree,
            (List.lookup (rpartition_slash e.path).1 st.dirMap).getD 0⟩],
           if (e.type == EntryType.tree) = true
             then (e.path, st.nodes.length) :: st.dirMap else st.dirMap⟩ := by
      cases htype : e.type <;> simp [buildStep, htype]
    rw [List.foldl_cons, hbs]
    have hres := buildSteps_invariant rest (done ++ [e])
        (⟨st.nodes ++ [⟨(rpartition_slash e.path).2, e.path, e.type == EntryType.tree,
            (List.lookup (rpartition_slash e.path).1 st.dirMap).getD 0⟩],
         if (e.type == EntryType.tree) = true
           then (e.path, st.nodes.length) :: st.dirMap else st.dirMap⟩ : BuildState)
        (by simpa using hpair)
        (fun x hx => hA x (List.mem_cons_of_mem _ hx))
        (by
          intro x hx hne
          obtain ⟨d, hd, ha, hb2⟩ := hB x (List.mem_cons_of_mem _ hx) hne
          exact ⟨d, by simpa using hd, ha, hb2⟩)
        (by
          dsimp only
          simp)
        (by
          dsimp only
          intro pi hpi
          by_cases hif : (e.type == EntryType.tree) = true
          · rw [if_pos hif] at hpi
            rcases List.mem_cons.mp hpi with heq | hold
            · subst heq
              refine ⟨by simp, ?_⟩
              exact hkey _
            · obtain ⟨hb, hr⟩ := hdir pi hold
              refine ⟨by simp only [List.length_append]; omega, ?_⟩
              rw [recon_append _ _ _ hb]
              exact hr
          · rw [if_neg hif] at hpi
            obtain ⟨hb, hr⟩ := hdir pi hpi
            refine ⟨by simp only [List.length_append]; omega, ?_⟩
            rw [recon_append _ _ _ hb]
            exact hr)
        (by
          dsimp only
          intro d hd hdt
          rcases List.mem_append.mp hd with hdone | hde
          · obtain ⟨i, hi⟩ := hpresent d hdone hdt
            refine ⟨i, ?_⟩
            by_cases hif : (e.type == EntryType.tree) = true
            · rw [if_pos hif]
              exact List.mem_cons_of_mem _ hi
            · rw [if_neg hif]
              exact hi
          · have hde2 : d = e := by simpa using hde
            subst hde2
            have hif : (d.type == EntryType.tree) = true := by simp [hdt]
            refine ⟨st.nodes.length, ?_⟩
            rw [if_pos hif]
            exact List.mem_cons_self _ _)
        (by
          dsimp only
          rw [List.map_append, hmap]
          simp)
        (by
          dsimp only
          intro j nd hj0 hnd
          by_cases hjold : j < st.nodes.length
          · rw [recon_append _ _ _ hjold]
            rw [List.getElem?_append_left hjold] at hnd
            exact hrecon j nd hj0 hnd
          · by_cases hje : j = st.nodes.length
            · subst hje
              rw [List.getElem?_concat_length] at hnd
              injection hnd with hnd2
              rw [← hnd2]
              exact hkey _
            · exfalso
              have hlenle : (st.nodes
                  ++ [(⟨(rpartition_slash e.path).2, e.path, e.type == EntryType.tree,
                      (List.lookup (rpartition_slash e.path).1 st.dirMap).getD 0⟩ : TNode)]).length ≤ j := by
                simp only [List.length_append, List.length_singleton]
                omega
              rw [List.getElem?_eq_none hlenle] at hnd
              cases hnd)
    constructor
    · have h1 := hres.1
      simpa [List.append_assoc] using h1
    · exact hres.2

/-- Claim C2 (amended): the original claim fails when a parent directory is
    missing from the listing (see the counterexample); it holds for every
    listing in which no path starts with a slash, the parent path of every
    entry that has one is listed as a Directory entry, and paths are
    unique.  Under those hypotheses every File entry yields exactly one
    leaf whose full path, reconstructed by walking from the root, equals
    the entry's original path, and conversely every leaf of the tree
    reconstructs the path of some File entry. -/
theorem populate_tree_reconstructs_paths (entries : List RawEntry)
    (hroot : ∀ e ∈ entries, e.path.data.head? ≠ some '/')
    (hanc : ∀ e ∈ entries, (rpartition_slash e.path).1 ≠ "" →
      ∃ d ∈ entries, d.type = EntryType.tree ∧ d.path = (rpartition_slash e.path).1)
    (hnodup : (entries.map RawEntry.path).Nodup) :
    (∀ e ∈ entries, e.type = EntryType.blob →
      (nodeSummaries (populate_tree entries)).count (false, e.path) = 1) ∧
    (∀ pr ∈ nodeSummaries (populate_tree entries), pr.1 = false →
      ∃ e ∈ entries, e.type = EntryType.blob ∧ e.path = pr.2) := by
  have hperm : List.Perm (sortEntries entries) entries := List.perm_insertionSort _ _
  have hpair : List.Pairwise entryPathLe (sortEntries entries) :=
    List.sorted_insertionSort entryPathLe entries
  have hinv := buildSteps_invariant (sortEntries entries) [] ⟨[rootNode], [("", 0)]⟩
      (by simpa using hpair)
      (fun e he => hroot e (hperm.mem_iff.mp he))
      (by
        intro e he hne
        obtain ⟨d, hd, h1, h2⟩ := hanc e (hperm.mem_iff.mp he) hne
        exact ⟨d, by simpa using hperm.mem_iff.mpr hd, h1, h2⟩)
      (by simp)
      (by
        intro pi hpi
        have hpieq : pi = ("", 0) := by simpa using hpi
        subst hpieq
        exact ⟨by simp, rfl⟩)
      (by intro d hd; simp at hd)
      (by rfl)
      (by
        intro j nd hj0 hnd
        rw [List.getElem?_eq_none (by simpa using hj0)] at hnd
        cases hnd)
  have hmapf : (populate_tree entries).nodes.map (fun nd => (nd.isDir, nd.data))
      = (true, "")
        :: (sortEntries entries).map (fun d => (d.type == EntryType.tree, d.path)) := by
    have h1 := hinv.1
    simpa using h1
  have hreconf : ∀ j nd, 0 < j → (populate_tree entries).nodes[j]? = some nd →
      recon (populate_tree entries).nodes j = nd.data := hinv.2
  obtain ⟨nd0, tl, hn⟩ : ∃ nd0 tl, (populate_tree entries).nodes = nd0 :: tl := by
    cases hn : (populate_tree entries).nodes with
    | nil => rw [hn] at hmapf; simp at hmapf
    | cons a b => exact ⟨a, b, rfl⟩
  have hnd0 : nd0.isDir = true ∧ nd0.data = "" := by
    rw [hn, List.map_cons] at hmapf
    injection hmapf with h1 h2
    exact ⟨congrArg Prod.fst h1, congrArg Prod.snd h1⟩
  have hsum : nodeSummaries (populate_tree entries)
      = (populate_tree entries).nodes.map (fun nd => (nd.isDir, nd.data)) := by
    unfold nodeSummaries
    apply List.ext_getElem
    · simp
    · intro i h1 h2
      have hib : i < (populate_tree entries).nodes.length := by simpa using h1
      rw [List.getElem_map, List.getElem_range, List.getElem_map,
        List.getD_eq_getElem _ _ hib]
      have hcomp : recon (populate_tree entries).nodes i
          = ((populate_tree entries).nodes.get ⟨i, hib⟩).data := by
        cases i with
        | zero =>
          have hz : recon (populate_tree entries).nodes 0 = "" := rfl
          rw [hz]
          have hget0 : (populate_tree entries).nodes.get ⟨0, hib⟩ = nd0 := by
            have := List.get_of_eq hn ⟨0, hib⟩
            simpa using this
          rw [hget0, hnd0.2]
        | succ j =>
          exact hreconf (j + 1) _ (Nat.succ_pos j) (List.getElem?_eq_getElem hib)
      rw [List.get_eq_getElem] at hcomp
      rw [hcomp]
  constructor
  · intro e he hblob
    rw [hsum, hmapf]
    rw [List.count_cons_of_ne (by simp), List.count_eq_countP, List.countP_map]
    simp only [Function.comp_def]
    have hiff : ∀ d ∈ sortEntries entries,
        ((d.type == EntryType.tree, d.path) == ((false : Bool), e.path)) = true
          ↔ (d.type == EntryType.blob && d.path == e.path) = true := by
      intro d _
      cases hdt : d.type <;> simp [hdt, Prod.ext_iff]
    rw [List.countP_congr hiff, hperm.countP_eq]
    have hub : List.countP (fun d => d.type == EntryType.blob && d.path == e.path) entries
        ≤ List.countP (fun d => d.path == e.path) entries := by
      apply List.countP_mono_left
      intro x _ hx
      exact ((Bool.and_eq_true _ _).mp hx).2
    have hpatheq : List.countP (fun d => d.path == e.path) entries
        = (entries.map RawEntry.path).count e.path := by
      rw [List.count_eq_countP, List.countP_map]
      simp only [Function.comp_def]
    have hone : (entries.map RawEntry.path).count e.path = 1 :=
      List.count_eq_one_of_mem hnodup (List.mem_map.mpr ⟨e, he, rfl⟩)
    have hlb : 0 < List.countP
        (fun d => d.type == EntryType.blob && d.path == e.path) entries := by
      rw [List.countP_pos_iff]
      exact ⟨e, he, by simp [hblob]⟩
    rw [hpatheq, hone] at hub
    omega
  · intro pr hpr hfalse
    rw [hsum, hmapf] at hpr
    rcases List.mem_cons.mp hpr with heq | hmem
    · rw [heq] at hfalse
      simp at hfalse
    · obtain ⟨d, hds, hgd⟩ := List.mem_map.mp hmem
      refine ⟨d, hperm.mem_iff.mp hds, ?_, ?_⟩
      · have hfst : (d.type == EntryType.tree) = false := by
          have h1 := congrArg Prod.fst hgd
          simpa [hfalse] using h1
        cases hdt : d.type with
        | blob => rfl
        | tree => rw [hdt] at hfst; simp at hfst
      · have h2 := congrArg Prod.snd hgd
        simpa using h2

/-- Closed instantiation of the reconstruction theorem at the spec example
    [(a, Directory), (a/b.txt, File)]: exactly one leaf of the built tree
    reconstructs to a/b.txt. -/
theorem populate_tree_reconstructs_paths_witness :
    (nodeSummaries (populate_tree
        [⟨"a", EntryType.tree⟩, ⟨"a/b.txt", EntryType.blob⟩])).count
      (false, "a/b.txt") = 1 :=
  (populate_tree_reconstructs_paths
      [⟨"a", EntryType.tree⟩, ⟨"a/b.txt", EntryType.blob⟩]
      (by decide) (by decide) (by decide)).1
    ⟨"a/b.txt", EntryType.blob⟩ (by decide) rfl

end GitSeer
